import Mathlib

/-!
Verification of the PMI-dependency estimator
(repository `pmi-dependencies`, files `old.pmi-accuracy_span-as-batch.py`
and `old/old.pmi-accuracy-nocontext-wbaseline.py`).

The Python code is shallowly embedded:

* the XLNet model is an opaque oracle; a batch call applies the oracle to each
  batch row independently, so the oracle is modelled as a function of one row
  (input ids, permutation-mask matrix, target-mapping matrix) returning the
  log-probability of each vocabulary id (`Nat → ℚ`); log-probabilities are
  exact rationals, since no claim depends on float rounding;
* a float that can be NaN is `Option ℚ` with `none` playing NaN;
  a plain finite float is `ℚ`;
* numpy/torch tensors are nested lists; `tensor[a:b]` is `(·.drop a).take (b-a)`;
* Python exceptions become `Except`/sum results;
* `sorted(..., key=…, reverse=…)` (a stable sort) is `List.insertionSort`
  with the corresponding total preorder (insertion sort is stable).
-/

/-- An oracle call on one batch row: sentence ids, permutation mask
(`seqlen × seqlen`), target mapping (`1 × seqlen`); result: log-probability of
each vocabulary id.  Models one row of
`F.log_softmax(model(input_ids, perm_mask, target_mapping)[0], 2)`. -/
abbrev Oracle : Type := List Nat → List (List ℚ) → List (List ℚ) → Nat → ℚ

/-- One batch row of an XLNet query: its permutation-mask matrix
(`seqlen × seqlen`, entry 1 = hidden) and its target-mapping matrix
(`1 × seqlen`, entry 1 = position to predict). -/
structure QueryRow where
  permMask : List (List ℚ)
  targetMapping : List (List ℚ)
  deriving DecidableEq

/-- Numerator row of `make_mask_and_mapping_single_pair` for target sub-token
`idx` of span `w1`: the mask hides columns `idx .. w1[-1]` (the slice
`index:w1_indices[-1]+1` of the Python code), every mask row being equal since
the code assigns whole columns (`perm_mask[b, :, c] = 1`); the target selects
`idx`. -/
def numeratorRow (w1 : List Nat) (seqlen idx : Nat) : QueryRow :=
  { permMask := List.replicate seqlen
      ((List.range seqlen).map fun c =>
        if idx ≤ c ∧ c ≤ w1.getLastD 0 then (1 : ℚ) else 0),
    targetMapping := [(List.range seqlen).map fun c =>
        if c = idx then (1 : ℚ) else 0] }

/-- Denominator row: additionally hides every column of the context span
`w2` (`perm_mask[len1+i, :, w2_indices] = 1.0`). -/
def denominatorRow (w1 w2 : List Nat) (seqlen idx : Nat) : QueryRow :=
  { permMask := List.replicate seqlen
      ((List.range seqlen).map fun c =>
        if (idx ≤ c ∧ c ≤ w1.getLastD 0) ∨ c ∈ w2 then (1 : ℚ) else 0),
    targetMapping := [(List.range seqlen).map fun c =>
        if c = idx then (1 : ℚ) else 0] }

/-- Embedding of `make_mask_and_mapping_single_pair(w1_indices, w2_indices,
seqlen)`: `2·len(w1_indices)` batch rows, first the numerator rows (context
span visible), then the denominator rows (context span hidden); row `i` and
row `len1+i` both predict sub-token `w1_indices[i]` and hide the columns
`w1_indices[i] .. w1_indices[-1]`.  The identical tensor construction appears
inline in `pmi_between_spans` of the span-as-batch file. -/
def make_mask_and_mapping_single_pair (w1 w2 : List Nat) (seqlen : Nat) :
    List QueryRow :=
  (w1.map fun idx => numeratorRow w1 seqlen idx) ++
    (w1.map fun idx => denominatorRow w1 w2 seqlen idx)

/-- Oracle output for one batch row. -/
def evalRow (f : Oracle) (ids : List Nat) (r : QueryRow) : Nat → ℚ :=
  f ids r.permMask r.targetMapping

/-- Embedding of `get_pmi_from_outputs(outputs, w1_indices, sentence_as_ids)`:
the flat list of `2·len1` output rows is read as a `(2, len1)` array
(`outputs.reshape(2, len1, -1)`), the per-sub-token log-probabilities of the
sentence's own ids are summed for the numerator half and the denominator half,
and the PMI estimate is their difference. -/
def get_pmi_from_outputs (outputs : List (Nat → ℚ)) (w1 : List Nat)
    (ids : List Nat) : ℚ :=
  let len1 := w1.length
  (((List.range len1).map fun i =>
      outputs.getD i (fun _ => 0) (ids.getD (w1.getD i 0) 0)).sum) -
    (((List.range len1).map fun i =>
      outputs.getD (len1 + i) (fun _ => 0) (ids.getD (w1.getD i 0) 0)).sum)

/-- Embedding of `pmi_between_spans(w1_indices, w2_indices, sentence_as_ids)`
(the single-pair strategy): build the `2·len1` mask/target rows with
`seqlen = len(sentence_as_ids)`, run the oracle on them, and reduce exactly as
`get_pmi_from_outputs` does (the Python function repeats that reduction
inline, token for token). -/
def pmi_between_spans (f : Oracle) (w1 w2 : List Nat) (ids : List Nat) : ℚ :=
  let rows := make_mask_and_mapping_single_pair w1 w2 ids.length
  get_pmi_from_outputs (rows.map (evalRow f ids)) w1 ids

/-- Embedding of `get_pmi_matrix_using_spans` (single-pair strategy, driver of
the span-as-batch file), parameterised by the per-word sub-token spans
`indices` and the sub-token ids `ids` that the tokenizer produced: diagonal
entries are set to NaN (`none`), every other entry is the single-pair PMI. -/
def get_pmi_matrix_using_spans (f : Oracle) (indices : List (List Nat))
    (ids : List Nat) : List (List (Option ℚ)) :=
  let slength := indices.length
  (List.range slength).map fun w1_index =>
    (List.range slength).map fun w2_index =>
      if w2_index = w1_index then none
      else some (pmi_between_spans f (indices.getD w1_index [])
        (indices.getD w2_index []) ids)

/-- Embedding of `make_chunks(m, n)`: the start/finish index pairs
`(0,n), (n,2n), …` of the `m/n` full chunks, followed by the remainder chunk
when `m % n ≠ 0`. -/
def make_chunks (m n : Nat) : List (Nat × Nat) :=
  let r := m % n
  let d := m / n
  ((List.range d).map fun i => (n * i, n * (i + 1))) ++
    (if r ≠ 0 then [(d * n, d * n + r)] else [])

/-- Embedding of `make_mask_and_mapping(indices)` (whole-sentence batched
strategy): concatenate the single-pair batches for every ordered word pair,
`i` ascending outer, `j` ascending inner, with
`seqlen = len(flattened indices) + 2` (the two trailing sentinels). -/
def make_mask_and_mapping (indices : List (List Nat)) : List QueryRow :=
  let seqlen := indices.flatten.length + 2
  indices.flatMap fun w1 =>
    indices.flatMap fun w2 => make_mask_and_mapping_single_pair w1 w2 seqlen

/-- Offset `pad[i] + j·2·len(indices[i])` at which
`get_pmi_matrix_from_outputs` reads pair `(i, j)` back out of the combined
output, with `pad[i] = 2·V·(Σ_{k<i} len(indices[k]))` computed in the code as
`len(indices)*2*cumsum`. -/
def pairOffset (indices : List (List Nat)) (i j : Nat) : Nat :=
  2 * indices.length * ((indices.take i).map List.length).sum +
    j * (2 * (indices.getD i []).length)

/-- Embedding of `get_pmi_matrix_from_outputs(outputs, indices,
sentence_as_ids)`: every entry `(i, j)` — the diagonal included — is read from
the slice `outputs[start:start+2·len(indices[i])]` and reduced by
`get_pmi_from_outputs`; the computed value is a finite number, hence `some`. -/
def get_pmi_matrix_from_outputs (outputs : List (Nat → ℚ))
    (indices : List (List Nat)) (ids : List Nat) : List (List (Option ℚ)) :=
  (List.range indices.length).map fun i =>
    (List.range indices.length).map fun j =>
      some (get_pmi_from_outputs
        ((outputs.drop (pairOffset indices i j)).take
          (2 * (indices.getD i []).length))
        (indices.getD i []) ids)

/-- Embedding of `ptb_tokenlist_to_pmi_matrix` (whole-sentence batched
strategy), parameterised by the spans and ids the tokenizer produced and by
the batch size: build the whole-sentence batch, evaluate it in chunks of
`batchSize` rows, concatenate the chunk outputs, and decompose them into the
matrix. -/
def ptb_tokenlist_to_pmi_matrix (f : Oracle) (batchSize : Nat)
    (indices : List (List Nat)) (ids : List Nat) : List (List (Option ℚ)) :=
  get_pmi_matrix_from_outputs
    ((make_chunks (make_mask_and_mapping indices).length batchSize).flatMap
      fun se => (((make_mask_and_mapping indices).drop se.1).take
        (se.2 - se.1)).map (evalRow f ids))
    indices ids

/-- The two ways the word-to-sub-token mapping can fail: the guarded
`ValueError('word_index exceeds length of nested_list')` (the alignment
error), and the unguarded Python `IndexError` that `nested_list[word_index]`
raises when the guard lets an out-of-range index through. -/
inductive AlignFailure where
  | alignmentError
  | pythonIndexError
  deriving DecidableEq

/-- Embedding of `word_index_to_subword_indices(word_index, nested_list)`:
raise the alignment `ValueError` when `word_index > len(nested_list)`;
otherwise sum the lengths of the first `word_index` sub-lists and return
`range(count, count + len(nested_list[word_index]))` — an access that raises
`IndexError` when `word_index = len(nested_list)`, the index the guard
fails to catch. -/
def word_index_to_subword_indices (word_index : Nat)
    (nested_list : List (List Nat)) : Except AlignFailure (List Nat) :=
  if word_index > nested_list.length then .error .alignmentError
  else
    let count := ((nested_list.take word_index).map List.length).sum
    match nested_list[word_index]? with
    | none => .error .pythonIndexError
    | some sub => .ok (List.range' count sub.length)

/-- Parent-pointer step: `parents[i]`, with an out-of-range index left fixed
(in-range behaviour matches the Python list access; the claims only involve
in-range indices). -/
def pstep (ps : List Nat) (i : Nat) : Nat := ps.getD i i

/-- `k`-fold iteration of the parent-pointer step. -/
def iterP (ps : List Nat) : Nat → Nat → Nat
  | 0, i => i
  | k + 1, i => iterP ps k (pstep ps i)

/-- A root of the parent forest: a self-loop of the parent pointer. -/
abbrev IsRootP (ps : List Nat) (r : Nat) : Prop := pstep ps r = r

/-- Fuel-bounded embedding of the naive `find` loop
(`while True: if i_parent != parents[i_parent]: i_parent = parents[i_parent]
else break`).  With enough fuel it returns the same value the unbounded loop
would return whenever that loop terminates. -/
def findAux (ps : List Nat) : Nat → Nat → Nat
  | 0, i => i
  | fuel + 1, i => if pstep ps i = i then i else findAux ps fuel (pstep ps i)

/-- Embedding of the `UnionFind` class: a bare parents list. -/
structure UnionFind where
  parents : List Nat
  deriving DecidableEq

/-- `UnionFind.__init__(n)`: `parents = list(range(n))`. -/
def UnionFind.init (n : Nat) : UnionFind := ⟨List.range n⟩

/-- `UnionFind.find(i)`, the naive loop run with fuel `len(parents)` (enough
for any acyclic parents list). -/
def UnionFind.find (uf : UnionFind) (i : Nat) : Nat :=
  findAux uf.parents uf.parents.length i

/-- `UnionFind.union(i, j)`: when the roots differ, point the root of `i`'s
component at `j`. -/
def UnionFind.union (uf : UnionFind) (i j : Nat) : UnionFind :=
  if uf.find i ≠ uf.find j then ⟨uf.parents.set (uf.find i) j⟩ else uf

/-- A sequence of `union(i, j)` calls applied in order. -/
def UnionFind.applyUnions (uf : UnionFind) (ops : List (Nat × Nat)) :
    UnionFind :=
  ops.foldl (fun acc p => acc.union p.1 p.2) uf

/-- The sort key `float('-inf') if (x != x) else x` induces this order on
weights: NaN (`none`) compares below every number and equal to itself. -/
def keyLe (a b : Option ℚ) : Bool :=
  match a, b with
  | none, _ => true
  | some _, none => false
  | some qa, some qb => qa ≤ qb

/-- A candidate edge with its weight. -/
abbrev Cand : Type := (Nat × Nat) × Option ℚ

/-- Ascending key order on candidates (`sorted(…, key=…)`,
`reverse=False`). -/
def candLe (a b : Cand) : Prop := keyLe a.2 b.2 = true

/-- Descending key order on candidates (`sorted(…, key=…, reverse=True)`,
which is stable descending). -/
def candGe (a b : Cand) : Prop := keyLe b.2 a.2 = true

instance : DecidableRel candLe := fun a b =>
  inferInstanceAs (Decidable (_ = true))

instance : DecidableRel candGe := fun a b =>
  inferInstanceAs (Decidable (_ = true))

theorem keyLe_total (a b : Option ℚ) : keyLe a b = true ∨ keyLe b a = true := by
  cases a <;> cases b <;> simp [keyLe] <;> exact le_total _ _

theorem keyLe_trans {a b c : Option ℚ} (hab : keyLe a b = true)
    (hbc : keyLe b c = true) : keyLe a c = true := by
  cases a <;> cases b <;> cases c <;> simp_all [keyLe]
  exact le_trans hab hbc

instance : IsTotal Cand candLe := ⟨fun a b => keyLe_total a.2 b.2⟩

instance : IsTrans Cand candLe := ⟨fun _ _ _ => keyLe_trans⟩

instance : IsTotal Cand candGe := ⟨fun a b => keyLe_total b.2 a.2⟩

instance : IsTrans Cand candGe := ⟨fun _ _ _ hab hbc => keyLe_trans hbc hab⟩

/-- The row-major candidate list `pairs_to_weights` of the spanning-tree
extractor: every ordered index pair of the matrix — the diagonal included —
whose two surface forms avoid the excluded-token set, with its weight. -/
def candidate_pairs (matrix : List (List (Option ℚ))) (words : List String)
    (excluded : List String) : List Cand :=
  (List.range matrix.length).flatMap fun i_index =>
    (List.range (matrix.getD i_index []).length).flatMap fun j_index =>
      if words.getD i_index "" ∈ excluded ∨ words.getD j_index "" ∈ excluded
      then []
      else [((i_index, j_index), (matrix.getD i_index []).getD j_index none)]

/-- The candidate list after the sort
`sorted(pairs_to_weights.items(), key=…, reverse=maximum_spanning_tree)`:
stable descending by key when `maximum_spanning_tree` is set, stable ascending
otherwise. -/
def sorted_candidate_pairs (matrix : List (List (Option ℚ)))
    (words : List String) (maximum_spanning_tree : Bool)
    (excluded : List String) : List Cand :=
  if maximum_spanning_tree then
    List.insertionSort candGe (candidate_pairs matrix words excluded)
  else
    List.insertionSort candLe (candidate_pairs matrix words excluded)

/-- The greedy acceptance loop of the spanning-tree extractor: accept a
candidate edge exactly when its endpoints have different `find` roots, then
merge and append. -/
def mstFold (uf : UnionFind) (edges : List (Nat × Nat)) :
    List Cand → UnionFind × List (Nat × Nat)
  | [] => (uf, edges)
  | c :: rest =>
    if uf.find c.1.1 ≠ uf.find c.1.2 then
      mstFold (uf.union c.1.1 c.1.2) (edges ++ [c.1]) rest
    else
      mstFold uf edges rest

/-- Apostrophe character, kept out of string literals. -/
def apos : String := (Char.ofNat 39).toString

/-- Excluded-token set of `MST_edges` (span-as-batch file). -/
def excludedSpanAsBatch : List String :=
  ["", apos, apos ++ apos, ",", ".", ":", "``", "-LRB-", "-RRB-"]

/-- Excluded-token set of `prims_MST_edges` (nocontext-wbaseline file),
which additionally excludes ";", "!" and "?". -/
def excludedNocontext : List String :=
  ["", apos, apos ++ apos, ",", ".", ";", "!", "?", ":", "``", "-LRB-",
    "-RRB-"]

/-- Spanning-tree extraction shared by the two files: build the filtered
candidate list, sort it, and run the greedy union-find loop starting from
`UnionFind(len(matrix))` and an empty edge list. -/
def mst_core (excluded : List String) (matrix : List (List (Option ℚ)))
    (words : List String) (maximum_spanning_tree : Bool) :
    List (Nat × Nat) :=
  (mstFold (UnionFind.init matrix.length) []
    (sorted_candidate_pairs matrix words maximum_spanning_tree excluded)).2

/-- Embedding of `MST_edges(matrix, words, maximum_spanning_tree)` of the
span-as-batch file. -/
def MST_edges (matrix : List (List (Option ℚ))) (words : List String)
    (maximum_spanning_tree : Bool) : List (Nat × Nat) :=
  mst_core excludedSpanAsBatch matrix words maximum_spanning_tree

/-- Embedding of `prims_MST_edges(matrix, words, maximum_spanning_tree)` of
the nocontext-wbaseline file. -/
def prims_MST_edges (matrix : List (List (Option ℚ))) (words : List String)
    (maximum_spanning_tree : Bool) : List (Nat × Nat) :=
  mst_core excludedNocontext matrix words maximum_spanning_tree

/-- `tuple(sorted(x))` on an index pair: endpoints in ascending order. -/
def sortPair (p : Nat × Nat) : Nat × Nat :=
  if p.1 ≤ p.2 then p else (p.2, p.1)

/-- The unlabeled undirected attachment score computed inside
`score_observation`: the sorted predicted and gold edges are made into sets,
the score is `|gold ∩ predicted| / len(gold_edges)`, and NaN (`none`) when
the gold edge list is empty. -/
def uuas_score (predicted_edges gold_edges : List (Nat × Nat)) : Option ℚ :=
  if gold_edges.length ≠ 0 then
    some ((((gold_edges.map sortPair).toFinset ∩
      (predicted_edges.map sortPair).toFinset).card : ℚ) /
      (gold_edges.length : ℚ))
  else none

/-- Undirected single-step adjacency in an edge list. -/
def edgeStep (es : List (Nat × Nat)) (x y : Nat) : Prop :=
  (x, y) ∈ es ∨ (y, x) ∈ es

/-- Undirected connectivity in an edge list: the reflexive-transitive closure
of adjacency. -/
def edgeConnected (es : List (Nat × Nat)) : Nat → Nat → Prop :=
  Relation.ReflTransGen (edgeStep es)

/-- Reading an index below `n` out of a mapped range. -/
theorem getD_map_range {α : Type} (f : Nat → α) (d : α) {i n : Nat}
    (h : i < n) : ((List.range n).map f).getD i d = f i := by
  rw [List.getD_eq_getElem?_getD, List.getElem?_eq_getElem (by simpa using h)]
  simp

/-- Constant factors move out of a mapped sum. -/
theorem sum_map_mul_left {α : Type} (c : Nat) (f : α → Nat) :
    ∀ l : List α, (l.map fun x => c * f x).sum = c * (l.map f).sum
  | [] => by simp
  | a :: t => by simp [sum_map_mul_left c f t, Nat.mul_add]

/-- A sum of a constant over a list. -/
theorem sum_map_const {α : Type} (c : Nat) :
    ∀ l : List α, (l.map fun _ => c).sum = l.length * c
  | [] => by simp
  | a :: t => by simp [sum_map_const c t, Nat.succ_mul, Nat.add_comm]

/-- Joining the full chunks `(0,n), (n,2n), …, ((d-1)n, dn)` of a list
recovers its first `n·d` elements. -/
theorem flatMap_range_chunks {α : Type} (n : Nat) :
    ∀ (d : Nat) (xs : List α),
      (((List.range d).map fun i => (n * i, n * (i + 1))).flatMap
          fun se => (xs.drop se.1).take (se.2 - se.1)) = xs.take (n * d)
  | 0, xs => by simp
  | d + 1, xs => by
    rw [List.range_succ, List.map_append, List.flatMap_append,
      flatMap_range_chunks n d xs]
    simp only [List.map_cons, List.map_nil, List.flatMap_cons,
      List.flatMap_nil, List.append_nil]
    have h1 : n * (d + 1) - n * d = n := by
      rw [Nat.mul_add, Nat.mul_one]
      omega
    rw [h1, ← List.take_add, Nat.mul_add, Nat.mul_one]

/-- Joining all `make_chunks` slices of a list recovers the list. -/
theorem make_chunks_flatMap {α : Type} (n : Nat) (xs : List α) :
    ((make_chunks xs.length n).flatMap
        fun se => (xs.drop se.1).take (se.2 - se.1)) = xs := by
  unfold make_chunks
  rw [List.flatMap_append, flatMap_range_chunks n (xs.length / n) xs]
  by_cases hr : xs.length % n = 0
  · simp only [hr, ne_eq, not_true_eq_false, if_false, List.flatMap_nil,
      List.append_nil]
    have : n * (xs.length / n) = xs.length := by
      have := Nat.div_add_mod xs.length n
      omega
    rw [this, List.take_length]
  · simp only [ne_eq, hr, not_false_eq_true, if_true, List.flatMap_cons,
      List.flatMap_nil, List.append_nil]
    have h1 : xs.length / n * n + xs.length % n - xs.length / n * n =
        xs.length % n := by omega
    rw [h1, Nat.mul_comm (xs.length / n) n, ← List.take_add]
    have : n * (xs.length / n) + xs.length % n = xs.length :=
      Nat.div_add_mod xs.length n
    rw [this, List.take_length]

/-- Evaluating the batch chunk by chunk and concatenating equals evaluating
the whole batch: the decomposition step of the batched strategy loses
nothing. -/
theorem chunked_outputs_eq {α β : Type} (n : Nat) (rows : List α)
    (ev : α → β) :
    ((make_chunks rows.length n).flatMap
        fun se => ((rows.drop se.1).take (se.2 - se.1)).map ev) =
      rows.map ev := by
  have h := make_chunks_flatMap n (rows.map ev)
  rw [List.length_map] at h
  rw [← h]
  simp only [← List.map_take, ← List.map_drop]

/-- Dropping the combined length of the first `i` images of a `flatMap`
lands at the start of the `i`-th image. -/
theorem flatMap_drop_aux {α β : Type} (g : α → List β) :
    ∀ (i : Nat) (l : List α),
      (l.flatMap g).drop (((l.take i).map fun a => (g a).length).sum) =
        (l.drop i).flatMap g
  | 0, l => by simp
  | i + 1, [] => by simp
  | i + 1, a :: t => by
    simp only [List.take_succ_cons, List.map_cons, List.sum_cons,
      List.flatMap_cons, List.drop_succ_cons]
    rw [← List.drop_drop, List.drop_left]
    exact flatMap_drop_aux g i t

/-- A single-pair batch holds `2·len(w1)` rows. -/
theorem msp_length (w1 w2 : List Nat) (s : Nat) :
    (make_mask_and_mapping_single_pair w1 w2 s).length = 2 * w1.length := by
  simp [make_mask_and_mapping_single_pair, Nat.two_mul]

/-- All pair batches of one target word hold `V·2·len(w1)` rows. -/
theorem inner_flatMap_length (indices : List (List Nat)) (w1 : List Nat)
    (s : Nat) :
    (indices.flatMap fun w2 =>
        make_mask_and_mapping_single_pair w1 w2 s).length =
      indices.length * (2 * w1.length) := by
  rw [List.length_flatMap]
  have h : (indices.map (List.length ∘ fun w2 =>
        make_mask_and_mapping_single_pair w1 w2 s)) =
      indices.map fun _ => 2 * w1.length :=
    List.map_congr_left fun a _ => msp_length w1 a s
  rw [h, sum_map_const]

/-- The closed-form offset arithmetic of the batched strategy: dropping
`pad[i] + j·2·len(indices[i])` rows of the whole-sentence batch and taking
the next `2·len(indices[i])` rows recovers exactly the single-pair batch of
the ordered pair `(i, j)`. -/
theorem make_mask_and_mapping_block (indices : List (List Nat)) (i j : Nat)
    (hi : i < indices.length) (hj : j < indices.length) :
    ((make_mask_and_mapping indices).drop (pairOffset indices i j)).take
        (2 * (indices.getD i []).length) =
      make_mask_and_mapping_single_pair (indices.getD i [])
        (indices.getD j []) (indices.flatten.length + 2) := by
  have hgetD : ∀ (k : Nat) (hk : k < indices.length),
      indices.getD k [] = indices[k] := by
    intro k hk
    rw [List.getD_eq_getElem?_getD, List.getElem?_eq_getElem hk]
    rfl
  have hdrop : ∀ (k : Nat), k < indices.length →
      indices.drop k = indices.getD k [] :: indices.drop (k + 1) := by
    intro k hk
    rw [hgetD k hk]
    exact List.drop_eq_getElem_cons hk
  have hmm : make_mask_and_mapping indices =
      indices.flatMap fun w1 => indices.flatMap fun w2 =>
        make_mask_and_mapping_single_pair w1 w2
          (indices.flatten.length + 2) := rfl
  have houter : 2 * indices.length * ((indices.take i).map List.length).sum =
      ((indices.take i).map fun a => (indices.flatMap fun w2 =>
        make_mask_and_mapping_single_pair a w2
          (indices.flatten.length + 2)).length).sum := by
    have h1 : ((indices.take i).map fun a => (indices.flatMap fun w2 =>
          make_mask_and_mapping_single_pair a w2
            (indices.flatten.length + 2)).length) =
        (indices.take i).map fun a => 2 * indices.length * a.length := by
      apply List.map_congr_left
      intro a _
      rw [inner_flatMap_length]
      ring
    rw [h1, sum_map_mul_left]
  have hinner : j * (2 * (indices.getD i []).length) =
      ((indices.take j).map fun a =>
        (make_mask_and_mapping_single_pair (indices.getD i []) a
          (indices.flatten.length + 2)).length).sum := by
    have h1 : ((indices.take j).map fun a =>
          (make_mask_and_mapping_single_pair (indices.getD i []) a
            (indices.flatten.length + 2)).length) =
        (indices.take j).map fun _ => 2 * (indices.getD i []).length :=
      List.map_congr_left fun a _ => msp_length _ a _
    rw [h1, sum_map_const, List.length_take, Nat.min_eq_left hj.le]
  have hle : j * (2 * (indices.getD i []).length) ≤
      (indices.flatMap fun w2 =>
        make_mask_and_mapping_single_pair (indices.getD i []) w2
          (indices.flatten.length + 2)).length := by
    rw [inner_flatMap_length]
    exact Nat.mul_le_mul_right _ hj.le
  rw [hmm]
  unfold pairOffset
  rw [← List.drop_drop, houter, flatMap_drop_aux _ i indices, hdrop i hi,
    List.flatMap_cons, List.drop_append_of_le_length hle, hinner,
    flatMap_drop_aux _ j indices, hdrop j hj, List.flatMap_cons,
    List.append_assoc,
    ← msp_length (indices.getD i []) (indices.getD j [])
      (indices.flatten.length + 2),
    List.take_left]

/-- A constant-zero oracle, used as a concrete instance. -/
def zeroOracle : Oracle := fun _ _ _ _ => 0

/-- C1: for every sentence (given by its per-word sub-token spans `indices`
and its sub-token ids, whose length is the flattened span length plus the two
sentinels) and every ordered word pair `(i, j)` with `i ≠ j`, the
whole-sentence batched strategy `ptb_tokenlist_to_pmi_matrix` (chunked oracle
calls, concatenated outputs, block read-back at offset
`pad[i] + j·2·len(indices[i])`) and the single-pair strategy
`get_pmi_matrix_using_spans` (one `2·len(indices[i])` batch per pair, reduced
by `pmi_between_spans`) produce the identical PMI value, for every
deterministic per-row oracle `f` and every batch size. -/
theorem claim_C1_strategies_agree (f : Oracle) (batchSize : Nat)
    (indices : List (List Nat)) (ids : List Nat)
    (hlen : ids.length = indices.flatten.length + 2)
    (i j : Nat) (hi : i < indices.length) (hj : j < indices.length)
    (hij : i ≠ j) :
    ((ptb_tokenlist_to_pmi_matrix f batchSize indices ids).getD i []).getD j
        none =
      ((get_pmi_matrix_using_spans f indices ids).getD i []).getD j none := by
  have hrhs : ((get_pmi_matrix_using_spans f indices ids).getD i []).getD j
      none = some (pmi_between_spans f (indices.getD i [])
        (indices.getD j []) ids) := by
    unfold get_pmi_matrix_using_spans
    rw [getD_map_range _ _ hi, getD_map_range _ _ hj, if_neg (Ne.symm hij)]
  have hout : ((make_chunks (make_mask_and_mapping indices).length
        batchSize).flatMap fun se =>
        (((make_mask_and_mapping indices).drop se.1).take
          (se.2 - se.1)).map (evalRow f ids)) =
      (make_mask_and_mapping indices).map (evalRow f ids) :=
    chunked_outputs_eq batchSize _ _
  have hlhs : ((ptb_tokenlist_to_pmi_matrix f batchSize indices ids).getD
      i []).getD j none =
      some (pmi_between_spans f (indices.getD i [])
        (indices.getD j []) ids) := by
    unfold ptb_tokenlist_to_pmi_matrix get_pmi_matrix_from_outputs
    rw [hout, getD_map_range _ _ hi, getD_map_range _ _ hj,
      ← List.map_drop, ← List.map_take, make_mask_and_mapping_block _ _ _ hi hj,
      ← hlen]
    rfl
  rw [hlhs, hrhs]

/-- Witness for C1 at a concrete instance: two one-sub-token words, ids of
length 4 (two content ids plus the two sentinels), the constant-zero oracle,
batch size 64, pair `(0, 1)`. -/
theorem claim_C1_strategies_agree_witness :
    [(5 : Nat), 6, 4, 3].length = [[(0 : Nat)], [1]].flatten.length + 2 ∧
      (0 : Nat) < [[(0 : Nat)], [1]].length ∧
      (1 : Nat) < [[(0 : Nat)], [1]].length ∧ (0 : Nat) ≠ 1 ∧
      ((ptb_tokenlist_to_pmi_matrix zeroOracle 64 [[0], [1]]
          [5, 6, 4, 3]).getD 0 []).getD 1 none =
        ((get_pmi_matrix_using_spans zeroOracle [[0], [1]]
          [5, 6, 4, 3]).getD 0 []).getD 1 none :=
  ⟨by decide, by decide, by decide, by decide,
    claim_C1_strategies_agree zeroOracle 64 [[0], [1]] [5, 6, 4, 3]
      (by decide) 0 1 (by decide) (by decide) (by decide)⟩

/-- Reading an in-range index of a mapped list. -/
theorem getD_map {α β : Type} (l : List α) (g : α → β) (k : Nat)
    (hk : k < l.length) (d : β) (d0 : α) :
    (l.map g).getD k d = g (l.getD k d0) := by
  rw [List.getD_eq_getElem?_getD, List.getElem?_map,
    List.getElem?_eq_getElem hk, List.getD_eq_getElem?_getD,
    List.getElem?_eq_getElem hk]
  rfl

/-- Reading an index in the left half of an appended list. -/
theorem getD_append_left {α : Type} (l1 l2 : List α) (k : Nat)
    (hk : k < l1.length) (d : α) :
    (l1 ++ l2).getD k d = l1.getD k d := by
  rw [List.getD_eq_getElem?_getD, List.getElem?_append_left hk,
    List.getD_eq_getElem?_getD]

/-- Reading an index in the right half of an appended list. -/
theorem getD_append_right {α : Type} (l1 l2 : List α) (k : Nat)
    (hk : l1.length ≤ k) (d : α) :
    (l1 ++ l2).getD k d = l2.getD (k - l1.length) d := by
  rw [List.getD_eq_getElem?_getD, List.getElem?_append_right hk,
    List.getD_eq_getElem?_getD]

/-- In-range read of a replicated list. -/
theorem getD_replicate {α : Type} (n : Nat) (a : α) (k : Nat) (hk : k < n)
    (d : α) : (List.replicate n a).getD k d = a := by
  rw [List.getD_eq_getElem?_getD, List.getElem?_replicate, if_pos hk]
  rfl

/-- In-range read of `range'`. -/
theorem getD_range' (a n k : Nat) (hk : k < n) (d : Nat) :
    (List.range' a n).getD k d = a + k := by
  have h2 : k < (List.range' a n).length := by simpa using hk
  rw [List.getD_eq_getElem?_getD, List.getElem?_eq_getElem h2]
  simp [List.getElem_range'_1]

/-- Last element of a nonempty `range'`. -/
theorem range'_getLastD : ∀ (n a d : Nat),
    (List.range' a (n + 1)).getLastD d = a + n
  | 0, a, d => by simp
  | n + 1, a, d => by
    rw [List.range'_succ, List.getLastD_cons, range'_getLastD n (a + 1) a]
    omega

/-- Permutation-mask entry `(r, c)` of a query row. -/
def maskEntry (q : QueryRow) (r c : Nat) : ℚ := (q.permMask.getD r []).getD c 0

/-- Target-mapping entry `c` of a query row. -/
def targetEntry (q : QueryRow) (c : Nat) : ℚ :=
  (q.targetMapping.getD 0 []).getD c 0

/-- Row `k` (`k < len1`) of a single-pair batch is the numerator row of the
`k`-th target sub-token. -/
theorem msp_getD_num (w1 w2 : List Nat) (s k : Nat) (hk : k < w1.length) :
    (make_mask_and_mapping_single_pair w1 w2 s).getD k ⟨[], []⟩ =
      numeratorRow w1 s (w1.getD k 0) := by
  unfold make_mask_and_mapping_single_pair
  rw [getD_append_left _ _ _ (by simpa using hk), getD_map _ _ _ hk _ 0]

/-- Row `len1 + k` (`k < len1`) of a single-pair batch is the denominator row
of the `k`-th target sub-token. -/
theorem msp_getD_den (w1 w2 : List Nat) (s k : Nat) (hk : k < w1.length) :
    (make_mask_and_mapping_single_pair w1 w2 s).getD (w1.length + k)
      ⟨[], []⟩ = denominatorRow w1 w2 s (w1.getD k 0) := by
  unfold make_mask_and_mapping_single_pair
  rw [getD_append_right _ _ _ (by simp)]
  simp only [List.length_map]
  have h : w1.length + k - w1.length = k := by omega
  rw [h, getD_map _ _ _ hk _ 0]

/-- Mask entries of a numerator row. -/
theorem numeratorRow_mask (w1 : List Nat) (s idx r c : Nat) (hr : r < s)
    (hc : c < s) :
    maskEntry (numeratorRow w1 s idx) r c =
      if idx ≤ c ∧ c ≤ w1.getLastD 0 then (1 : ℚ) else 0 := by
  unfold maskEntry numeratorRow
  rw [getD_replicate _ _ _ hr, getD_map_range _ _ hc]

/-- Mask entries of a denominator row. -/
theorem denominatorRow_mask (w1 w2 : List Nat) (s idx r c : Nat) (hr : r < s)
    (hc : c < s) :
    maskEntry (denominatorRow w1 w2 s idx) r c =
      if (idx ≤ c ∧ c ≤ w1.getLastD 0) ∨ c ∈ w2 then (1 : ℚ) else 0 := by
  unfold maskEntry denominatorRow
  rw [getD_replicate _ _ _ hr, getD_map_range _ _ hc]

/-- Target entries of a numerator row. -/
theorem numeratorRow_target (w1 : List Nat) (s idx c : Nat) (hc : c < s) :
    targetEntry (numeratorRow w1 s idx) c =
      if c = idx then (1 : ℚ) else 0 := by
  unfold targetEntry numeratorRow
  simp only [List.getD_cons_zero]
  rw [getD_map_range _ _ hc]

/-- Target entries of a denominator row. -/
theorem denominatorRow_target (w1 w2 : List Nat) (s idx c : Nat)
    (hc : c < s) :
    targetEntry (denominatorRow w1 w2 s idx) c =
      if c = idx then (1 : ℚ) else 0 := by
  unfold targetEntry denominatorRow
  simp only [List.getD_cons_zero]
  rw [getD_map_range _ _ hc]

/-- C7: for a contiguous target span `A = [a, a+la)` (`la > 0`) and a context
span `B` disjoint from `A`, both within a sentence of sub-token length
`len(ids)`, the query planner builds exactly `2·la` prediction requests; row
`k` and row `la+k` both target exactly sub-token `a+k`; in both, the mask
hides precisely the targeted sub-token and the span sub-tokens to its right
(columns `a+k .. a+la-1`), leaving the span sub-tokens to its left visible;
the first `la` rows leave `B` visible and the last `la` rows additionally
hide all of `B`; and the PMI reduction is the sum of the numerator
log-probabilities minus the sum of the denominator log-probabilities. -/
theorem claim_C7_single_pair_plan (f : Oracle) (a la : Nat) (hla : 0 < la)
    (B : List Nat) (ids : List Nat) (hA : a + la ≤ ids.length)
    (hBlen : ∀ b ∈ B, b < ids.length)
    (hBdisj : ∀ b ∈ B, b < a ∨ a + la ≤ b) :
    (make_mask_and_mapping_single_pair (List.range' a la) B
        ids.length).length = 2 * la ∧
    (∀ k, k < la → ∀ r c, r < ids.length → c < ids.length →
      maskEntry ((make_mask_and_mapping_single_pair (List.range' a la) B
          ids.length).getD k ⟨[], []⟩) r c =
        (if a + k ≤ c ∧ c < a + la then (1 : ℚ) else 0) ∧
      maskEntry ((make_mask_and_mapping_single_pair (List.range' a la) B
          ids.length).getD (la + k) ⟨[], []⟩) r c =
        (if (a + k ≤ c ∧ c < a + la) ∨ c ∈ B then (1 : ℚ) else 0) ∧
      targetEntry ((make_mask_and_mapping_single_pair (List.range' a la) B
          ids.length).getD k ⟨[], []⟩) c =
        (if c = a + k then (1 : ℚ) else 0) ∧
      targetEntry ((make_mask_and_mapping_single_pair (List.range' a la) B
          ids.length).getD (la + k) ⟨[], []⟩) c =
        (if c = a + k then (1 : ℚ) else 0)) ∧
    (∀ k, k < la → ∀ r, r < ids.length → ∀ b ∈ B,
      maskEntry ((make_mask_and_mapping_single_pair (List.range' a la) B
          ids.length).getD k ⟨[], []⟩) r b = 0 ∧
      maskEntry ((make_mask_and_mapping_single_pair (List.range' a la) B
          ids.length).getD (la + k) ⟨[], []⟩) r b = 1) ∧
    pmi_between_spans f (List.range' a la) B ids =
      ((List.range la).map fun k =>
        evalRow f ids ((make_mask_and_mapping_single_pair (List.range' a la)
          B ids.length).getD k ⟨[], []⟩) (ids.getD (a + k) 0)).sum -
      ((List.range la).map fun k =>
        evalRow f ids ((make_mask_and_mapping_single_pair (List.range' a la)
          B ids.length).getD (la + k) ⟨[], []⟩) (ids.getD (a + k) 0)).sum := by
  have hlen : (List.range' a la).length = la := by simp
  have hlast : (List.range' a la).getLastD 0 = a + la - 1 := by
    have h1 : la - 1 + 1 = la := by omega
    rw [← h1, range'_getLastD]
    omega
  have hnum : ∀ k, k < la →
      (make_mask_and_mapping_single_pair (List.range' a la) B
        ids.length).getD k ⟨[], []⟩ =
      numeratorRow (List.range' a la) ids.length (a + k) := by
    intro k hk
    rw [msp_getD_num _ _ _ _ (by omega), getD_range' _ _ _ hk]
  have hden : ∀ k, k < la →
      (make_mask_and_mapping_single_pair (List.range' a la) B
        ids.length).getD (la + k) ⟨[], []⟩ =
      denominatorRow (List.range' a la) B ids.length (a + k) := by
    intro k hk
    have h2 : la + k = (List.range' a la).length + k := by rw [hlen]
    rw [h2, msp_getD_den _ _ _ _ (by omega), getD_range' _ _ _ hk]
  have hcond : ∀ k c, (a + k ≤ c ∧ c ≤ (List.range' a la).getLastD 0) ↔
      (a + k ≤ c ∧ c < a + la) := by
    intro k c
    rw [hlast]
    omega
  refine ⟨by rw [msp_length, hlen], ?_, ?_, ?_⟩
  · intro k hk r c hr hc
    refine ⟨?_, ?_, ?_, ?_⟩
    · rw [hnum k hk, numeratorRow_mask _ _ _ _ _ hr hc,
        if_congr (hcond k c) rfl rfl]
    · rw [hden k hk, denominatorRow_mask _ _ _ _ _ _ hr hc,
        if_congr (or_congr_left (hcond k c)) rfl rfl]
    · rw [hnum k hk, numeratorRow_target _ _ _ _ hc]
    · rw [hden k hk, denominatorRow_target _ _ _ _ _ hc]
  · intro k hk r hr b hb
    have hblen := hBlen b hb
    have hbd := hBdisj b hb
    constructor
    · rw [hnum k hk, numeratorRow_mask _ _ _ _ _ hr hblen, hlast, if_neg]
      omega
    · rw [hden k hk, denominatorRow_mask _ _ _ _ _ _ hr hblen,
        if_pos (Or.inr hb)]
  · simp only [pmi_between_spans, get_pmi_from_outputs, hlen]
    congr 1
    · apply congrArg
      apply List.map_congr_left
      intro k hk
      have hk' : k < la := List.mem_range.mp hk
      rw [getD_map _ _ _ (by rw [msp_length, hlen]; omega) _ ⟨[], []⟩,
        getD_range' _ _ _ hk']
    · apply congrArg
      apply List.map_congr_left
      intro k hk
      have hk' : k < la := List.mem_range.mp hk
      rw [getD_map _ _ _ (by rw [msp_length, hlen]; omega) _ ⟨[], []⟩,
        getD_range' _ _ _ hk']

/-- Witness for C7: span `A = [1, 3)`, context `B = [3]`, sentence length 4;
the plan has exactly `2·2` rows. -/
theorem claim_C7_single_pair_plan_witness :
    (make_mask_and_mapping_single_pair (List.range' 1 2) [3]
      [(9 : Nat), 8, 7, 6].length).length = 2 * 2 :=
  (claim_C7_single_pair_plan zeroOracle 1 2 (by decide) [3] [9, 8, 7, 6]
    (by decide) (by decide) (by decide)).1

/-- C8 (boundary divergence): every in-range word index returns normally; the
out-of-range index `len(nested_list)` slips past the
`word_index > len(nested_list)` guard and fails with the Python `IndexError`
of `nested_list[word_index]`, not with the alignment `ValueError`; only
indices strictly greater than the length reach the alignment error. -/
theorem claim_C8_alignment_error_boundary :
    (∀ (nested : List (List Nat)) (w : Nat), w < nested.length →
      ∃ l, word_index_to_subword_indices w nested = .ok l) ∧
    (∀ nested : List (List Nat),
      word_index_to_subword_indices nested.length nested =
        .error .pythonIndexError) ∧
    (∀ (nested : List (List Nat)) (w : Nat), nested.length < w →
      word_index_to_subword_indices w nested = .error .alignmentError) := by
  refine ⟨?_, ?_, ?_⟩
  · intro nested w hw
    unfold word_index_to_subword_indices
    rw [if_neg (by omega), List.getElem?_eq_getElem hw]
    exact ⟨_, rfl⟩
  · intro nested
    unfold word_index_to_subword_indices
    rw [if_neg (by omega), List.getElem?_eq_none (Nat.le_refl _)]
  · intro nested w hw
    unfold word_index_to_subword_indices
    rw [if_pos hw]

/-- Witness for C8: with two words, index 0 is fine, index 2 (the length)
raises the index error, index 3 raises the alignment error. -/
theorem claim_C8_alignment_error_boundary_witness :
    (∃ l, word_index_to_subword_indices 0 [[5], [6]] = .ok l) ∧
    word_index_to_subword_indices 2 [[5], [6]] = .error .pythonIndexError ∧
    word_index_to_subword_indices 3 [[5], [6]] = .error .alignmentError :=
  ⟨claim_C8_alignment_error_boundary.1 [[5], [6]] 0 (by decide),
    claim_C8_alignment_error_boundary.2.1 [[5], [6]],
    claim_C8_alignment_error_boundary.2.2 [[5], [6]] 3 (by decide)⟩

/-- Iterating the parent pointer from a root stays put. -/
theorem iterP_fix {ps : List Nat} {i : Nat} (h : IsRootP ps i) :
    ∀ k, iterP ps k i = i
  | 0 => rfl
  | k + 1 => by
    show iterP ps k (pstep ps i) = i
    rw [h]
    exact iterP_fix h k

/-- The fuel-bounded find loop computes exactly the iterated parent
pointer. -/
theorem findAux_eq_iterP (ps : List Nat) :
    ∀ (fuel i : Nat), findAux ps fuel i = iterP ps fuel i
  | 0, _ => rfl
  | fuel + 1, i => by
    show (if pstep ps i = i then i else findAux ps fuel (pstep ps i)) =
      iterP ps fuel (pstep ps i)
    by_cases h : pstep ps i = i
    · rw [if_pos h, h, iterP_fix h]
    · rw [if_neg h]
      exact findAux_eq_iterP ps fuel (pstep ps i)

/-- Splitting an iteration count. -/
theorem iterP_add (ps : List Nat) :
    ∀ (x y i : Nat), iterP ps (x + y) i = iterP ps y (iterP ps x i)
  | 0, y, i => by
    rw [Nat.zero_add]
    rfl
  | x + 1, y, i => by
    have h : x + 1 + y = x + y + 1 := by omega
    rw [h]
    show iterP ps (x + y) (pstep ps i) = iterP ps y (iterP ps x (pstep ps i))
    exact iterP_add ps x y (pstep ps i)

/-- Once a root is reached, further iteration changes nothing. -/
theorem iterP_stable {ps : List Nat} {k i : Nat}
    (h : IsRootP ps (iterP ps k i)) {m : Nat} (hm : k ≤ m) :
    iterP ps m i = iterP ps k i := by
  obtain ⟨t, rfl⟩ := Nat.le.dest hm
  rw [iterP_add]
  exact iterP_fix h t

/-- Two root-reaching iteration counts give the same root. -/
theorem root_unique {ps : List Nat} {k m i : Nat}
    (hk : IsRootP ps (iterP ps k i)) (hm : IsRootP ps (iterP ps m i)) :
    iterP ps k i = iterP ps m i := by
  rcases le_total k m with h | h
  · rw [iterP_stable hk h]
  · rw [iterP_stable hm h]

/-- A non-root index is in range (out-of-range indices are fixed points of
the step). -/
theorem lt_of_not_root {ps : List Nat} {x : Nat} (h : ¬ IsRootP ps x) :
    x < ps.length := by
  by_contra hx
  apply h
  show pstep ps x = x
  unfold pstep
  exact List.getD_eq_default _ _ (by omega)

/-- Pigeonhole bound: a chain that reaches a root at all reaches it within
`length ps` steps, since the indices it visits before that are distinct
non-roots, all below `length ps`. -/
theorem rooted_within_length {ps : List Nat} {x : Nat}
    (h : ∃ k, IsRootP ps (iterP ps k x)) :
    IsRootP ps (iterP ps ps.length x) := by
  classical
  have hroot : IsRootP ps (iterP ps (Nat.find h) x) := Nat.find_spec h
  rcases le_or_lt (Nat.find h) ps.length with hle | hlt
  · rw [iterP_stable hroot hle]
    exact hroot
  · exfalso
    have hinj : ∀ a b, a < b → b < Nat.find h →
        iterP ps a x ≠ iterP ps b x := by
      intro a b hab hbk heq
      have h1 := iterP_add ps a (Nat.find h - b) x
      have h2 := iterP_add ps b (Nat.find h - b) x
      have h3 : b + (Nat.find h - b) = Nat.find h := by omega
      have h4 : iterP ps (a + (Nat.find h - b)) x = iterP ps (Nat.find h) x := by
        rw [h1, heq, ← h2, h3]
      have h5 : IsRootP ps (iterP ps (a + (Nat.find h - b)) x) := by
        rw [h4]
        exact hroot
      exact Nat.find_min h (by omega) h5
    have hmem : ∀ a ∈ Finset.range (Nat.find h),
        (fun a => iterP ps a x) a ∈ Finset.range ps.length := by
      intro a ha
      rw [Finset.mem_range] at ha ⊢
      exact lt_of_not_root (Nat.find_min h ha)
    have hInj : Set.InjOn (fun a => iterP ps a x)
        (Finset.range (Nat.find h)) := by
      intro a ha b hb heq
      simp only [Finset.coe_range, Set.mem_Iio] at ha hb
      by_contra hne
      rcases Nat.lt_or_ge a b with hab | hab
      · exact hinj a b hab hb heq
      · exact hinj b a (by omega) ha heq.symm
    have hcard := Finset.card_le_card_of_injOn _ hmem hInj
    simp only [Finset.card_range] at hcard
    omega

/-- Every chain of parent pointers reaches a root. -/
def RootedAll (ps : List Nat) : Prop := ∀ x, ∃ k, IsRootP ps (iterP ps k x)

/-- The root the naive find loop returns; `length ps` steps suffice. -/
def rootOf (ps : List Nat) (x : Nat) : Nat := iterP ps ps.length x

theorem rootOf_isRoot {ps : List Nat} (h : RootedAll ps) (x : Nat) :
    IsRootP ps (rootOf ps x) := rooted_within_length (h x)

theorem find_eq_rootOf (uf : UnionFind) (i : Nat) :
    uf.find i = rootOf uf.parents i := findAux_eq_iterP _ _ _

theorem pstep_init (n i : Nat) : pstep (List.range n) i = i := by
  unfold pstep
  rcases Nat.lt_or_ge i n with h | h
  · rw [List.getD_eq_getElem?_getD, List.getElem?_range h]
    rfl
  · exact List.getD_eq_default _ _ (by simpa using h)

theorem rootedAll_init (n : Nat) : RootedAll (List.range n) :=
  fun x => ⟨0, pstep_init n x⟩

/-- Parents lists of a well-formed union-find over `n` elements: length `n`
and every entry below `n`. -/
def BoundedPar (n : Nat) (ps : List Nat) : Prop :=
  ps.length = n ∧ ∀ v ∈ ps, v < n

theorem boundedPar_init (n : Nat) : BoundedPar n (List.range n) :=
  ⟨List.length_range n, fun v hv => List.mem_range.mp hv⟩

theorem pstep_lt {n : Nat} {ps : List Nat} (hb : BoundedPar n ps) {x : Nat}
    (hx : x < n) : pstep ps x < n := by
  unfold pstep
  have hxl : x < ps.length := by rw [hb.1]; exact hx
  rw [List.getD_eq_getElem?_getD, List.getElem?_eq_getElem hxl]
  exact hb.2 _ (List.getElem_mem _)

theorem iterP_lt {n : Nat} {ps : List Nat} (hb : BoundedPar n ps) :
    ∀ (k : Nat) {x : Nat}, x < n → iterP ps k x < n
  | 0, _, hx => hx
  | k + 1, _, hx => iterP_lt hb k (pstep_lt hb hx)

/-- The parent step is unchanged away from the overwritten index. -/
theorem pstep_set_ne {ps : List Nat} {ri x : Nat} (j : Nat) (h : x ≠ ri) :
    pstep (ps.set ri j) x = pstep ps x := by
  unfold pstep
  rw [List.getD_eq_getElem?_getD, List.getD_eq_getElem?_getD,
    List.getElem?_set_ne (Ne.symm h)]

/-- The overwritten index now points at the new parent. -/
theorem pstep_set_self {ps : List Nat} {ri : Nat} (j : Nat)
    (h : ri < ps.length) : pstep (ps.set ri j) ri = j := by
  unfold pstep
  rw [List.getD_eq_getElem?_getD]
  simp [List.getElem?_set_self, h]

/-- Iteration is unchanged while the chain avoids the overwritten index. -/
theorem iterP_set_eq {ps : List Nat} {ri : Nat} (j : Nat) :
    ∀ (k x : Nat), (∀ t, t < k → iterP ps t x ≠ ri) →
      iterP (ps.set ri j) k x = iterP ps k x
  | 0, _, _ => rfl
  | k + 1, x, h => by
    have h0 : x ≠ ri := h 0 (by omega)
    show iterP (ps.set ri j) k (pstep (ps.set ri j) x) =
      iterP ps k (pstep ps x)
    rw [pstep_set_ne j h0]
    exact iterP_set_eq j k (pstep ps x) fun t ht => h (t + 1) (by omega)

/-- A chain that ends at a root different from `ri` never visits `ri`. -/
theorem iterP_ne_of_root_ne {ps : List Nat} {ri x k : Nat}
    (hri : IsRootP ps ri) (hk : iterP ps k x ≠ ri) :
    ∀ t, t ≤ k → iterP ps t x ≠ ri := by
  intro t ht heq
  apply hk
  obtain ⟨u, rfl⟩ := Nat.le.dest ht
  rw [iterP_add, heq, iterP_fix hri]

/-- After pointing the root `ri` at `j`, every chain reaches a root again:
chains that used to end at `ri` now continue through `j` to `j`'s old root,
all other chains are untouched. -/
theorem set_root_reaches {n : Nat} {ps : List Nat} (hb : BoundedPar n ps)
    (hr : RootedAll ps) {ri j : Nat} (hri : IsRootP ps ri) (hrin : ri < n)
    (hrj : rootOf ps j ≠ ri) :
    ∀ x, ∃ k, iterP (ps.set ri j) k x =
        (if rootOf ps x = ri then rootOf ps j else rootOf ps x) ∧
      IsRootP (ps.set ri j) (iterP (ps.set ri j) k x) := by
  intro x
  have hlen : ri < ps.length := by rw [hb.1]; exact hrin
  have hrootx : IsRootP ps (rootOf ps x) := rootOf_isRoot hr x
  have hrootj : IsRootP ps (rootOf ps j) := rootOf_isRoot hr j
  have hkeep : ∀ r, IsRootP ps r → r ≠ ri → IsRootP (ps.set ri j) r := by
    intro r h hne
    show pstep (ps.set ri j) r = r
    rw [pstep_set_ne j hne]
    exact h
  have htrans : ∀ y, rootOf ps y ≠ ri →
      iterP (ps.set ri j) ps.length y = rootOf ps y := by
    intro y hy
    have hne := iterP_ne_of_root_ne hri hy
    rw [iterP_set_eq j ps.length y fun t ht => hne t (le_of_lt ht)]
    rfl
  by_cases hx : rootOf ps x = ri
  · have hex : ∃ t, iterP ps t x = ri := ⟨ps.length, hx⟩
    classical
    have haeq : iterP ps (Nat.find hex) x = ri := Nat.find_spec hex
    have hmin : ∀ t, t < Nat.find hex → iterP ps t x ≠ ri :=
      fun t ht => Nat.find_min hex ht
    refine ⟨Nat.find hex + 1 + ps.length, ?_, ?_⟩
    · rw [if_pos hx, iterP_add, iterP_add,
        iterP_set_eq j (Nat.find hex) x hmin, haeq]
      show iterP (ps.set ri j) ps.length (pstep (ps.set ri j) ri) =
        rootOf ps j
      rw [pstep_set_self j hlen]
      exact htrans j hrj
    · rw [iterP_add, iterP_add, iterP_set_eq j (Nat.find hex) x hmin, haeq]
      show IsRootP (ps.set ri j)
        (iterP (ps.set ri j) ps.length (pstep (ps.set ri j) ri))
      rw [pstep_set_self j hlen, htrans j hrj]
      exact hkeep _ hrootj hrj
  · refine ⟨ps.length, ?_, ?_⟩
    · rw [if_neg hx]
      exact htrans x hx
    · rw [htrans x hx]
      exact hkeep _ hrootx hx

/-- Pointing a root `ri` at `j` (with `j`'s root different from `ri`) keeps
every chain rooted, and the new root map sends the merged class to `j`'s old
root while fixing all others. -/
theorem rootOf_set {n : Nat} {ps : List Nat} (hb : BoundedPar n ps)
    (hr : RootedAll ps) {ri j : Nat} (hri : IsRootP ps ri) (hrin : ri < n)
    (hrj : rootOf ps j ≠ ri) :
    RootedAll (ps.set ri j) ∧
      ∀ x, rootOf (ps.set ri j) x =
        (if rootOf ps x = ri then rootOf ps j else rootOf ps x) := by
  have hreach := set_root_reaches hb hr hri hrin hrj
  have hralt : RootedAll (ps.set ri j) := by
    intro x
    obtain ⟨k, _, hk2⟩ := hreach x
    exact ⟨k, hk2⟩
  refine ⟨hralt, fun x => ?_⟩
  obtain ⟨k, hk1, hk2⟩ := hreach x
  have h1 : IsRootP (ps.set ri j)
      (iterP (ps.set ri j) (ps.set ri j).length x) :=
    rooted_within_length (hralt x)
  have h2 := root_unique h1 hk2
  show iterP (ps.set ri j) (ps.set ri j).length x =
    (if rootOf ps x = ri then rootOf ps j else rootOf ps x)
  rw [h2, hk1]

/-- The invariant every union sequence maintains: bounded in-range parents
and all chains rooted. -/
def GoodUF (n : Nat) (uf : UnionFind) : Prop :=
  BoundedPar n uf.parents ∧ RootedAll uf.parents

theorem goodUF_init (n : Nat) : GoodUF n (UnionFind.init n) :=
  ⟨boundedPar_init n, rootedAll_init n⟩

/-- `union(i, j)` preserves the invariant and acts on roots as the obvious
map: classes rooted at `i`'s root move to `j`'s root when the two roots
differ, everything else is fixed. -/
theorem union_preserves {n : Nat} {uf : UnionFind} (hg : GoodUF n uf)
    {i j : Nat} (hi : i < n) (hj : j < n) :
    GoodUF n (uf.union i j) ∧
      ∀ x, rootOf (uf.union i j).parents x =
        (if rootOf uf.parents x = rootOf uf.parents i ∧
            rootOf uf.parents i ≠ rootOf uf.parents j
          then rootOf uf.parents j else rootOf uf.parents x) := by
  obtain ⟨hb, hr⟩ := hg
  by_cases hcase : uf.find i ≠ uf.find j
  · have hne : rootOf uf.parents i ≠ rootOf uf.parents j := by
      rw [← find_eq_rootOf, ← find_eq_rootOf]
      exact hcase
    have hri : IsRootP uf.parents (rootOf uf.parents i) := rootOf_isRoot hr i
    have hrin : rootOf uf.parents i < n := iterP_lt hb _ hi
    have hrj : rootOf uf.parents j ≠ rootOf uf.parents i := Ne.symm hne
    have huf : (uf.union i j).parents =
        uf.parents.set (rootOf uf.parents i) j := by
      unfold UnionFind.union
      rw [if_pos hcase, find_eq_rootOf]
    obtain ⟨hralt, hchar⟩ := rootOf_set hb hr hri hrin hrj
    refine ⟨⟨⟨?_, ?_⟩, ?_⟩, ?_⟩
    · rw [huf, List.length_set, hb.1]
    · intro v hv
      rw [huf] at hv
      rcases List.mem_or_eq_of_mem_set hv with h | h
      · exact hb.2 v h
      · omega
    · rw [huf]
      exact hralt
    · intro x
      rw [huf, hchar x]
      exact if_congr (by tauto) rfl rfl
  · have heq : rootOf uf.parents i = rootOf uf.parents j := by
      rw [← find_eq_rootOf, ← find_eq_rootOf]
      exact not_ne_iff.mp hcase
    have huf : uf.union i j = uf := by
      unfold UnionFind.union
      rw [if_neg hcase]
    rw [huf]
    refine ⟨⟨hb, hr⟩, fun x => ?_⟩
    rw [if_neg]
    tauto

/-- A sequence of in-range unions preserves the invariant. -/
theorem goodUF_applyUnions {n : Nat} :
    ∀ (ops : List (Nat × Nat)) (uf : UnionFind), GoodUF n uf →
      (∀ p ∈ ops, p.1 < n ∧ p.2 < n) → GoodUF n (uf.applyUnions ops)
  | [], _, hg, _ => hg
  | p :: rest, uf, hg, hops => by
    have hp := hops p (by simp)
    have h1 := (union_preserves hg hp.1 hp.2).1
    exact goodUF_applyUnions rest _ h1 fun q hq => hops q (by simp [hq])

/-- Under the rootedness invariant, the only parent-pointer cycles are the
self-loops at roots. -/
theorem cycle_is_selfloop {ps : List Nat} (hr : RootedAll ps) {i k : Nat}
    (hk : 0 < k) (hcyc : iterP ps k i = i) : IsRootP ps i := by
  obtain ⟨m, hm⟩ := hr i
  have hper : ∀ t, iterP ps (t * k) i = i := by
    intro t
    induction t with
    | zero =>
      rw [Nat.zero_mul]
      rfl
    | succ t ih =>
      have h : (t + 1) * k = t * k + k := by ring
      rw [h, iterP_add, ih, hcyc]
  have hle : m ≤ m * k := Nat.le_mul_of_pos_right m hk
  have hstable := iterP_stable hm hle
  have hfix : iterP ps m i = i := by rw [← hstable, hper m]
  rw [hfix] at hm
  exact hm

/-- C10: after any finite sequence of `union(i, j)` calls with in-range
arguments on `UnionFind(n)`, the parents list contains no cycle other than
the self-loops at roots, every chain reaches a root within `len(parents)`
steps, and giving the find loop more fuel never changes its result — the
naive unbounded `find` loop terminates on every input. -/
theorem claim_C10_unionfind_find_terminates (n : Nat)
    (ops : List (Nat × Nat)) (hops : ∀ p ∈ ops, p.1 < n ∧ p.2 < n) :
    (∀ i k, 0 < k →
      iterP ((UnionFind.init n).applyUnions ops).parents k i = i →
      IsRootP ((UnionFind.init n).applyUnions ops).parents i) ∧
    (∀ i, IsRootP ((UnionFind.init n).applyUnions ops).parents
      (iterP ((UnionFind.init n).applyUnions ops).parents
        ((UnionFind.init n).applyUnions ops).parents.length i)) ∧
    (∀ i fuel, ((UnionFind.init n).applyUnions ops).parents.length ≤ fuel →
      findAux ((UnionFind.init n).applyUnions ops).parents fuel i =
        ((UnionFind.init n).applyUnions ops).find i) := by
  have hg := goodUF_applyUnions ops (UnionFind.init n) (goodUF_init n) hops
  refine ⟨?_, ?_, ?_⟩
  · intro i k hk hcyc
    exact cycle_is_selfloop hg.2 hk hcyc
  · intro i
    exact rooted_within_length (hg.2 i)
  · intro i fuel hfuel
    rw [findAux_eq_iterP, UnionFind.find, findAux_eq_iterP]
    exact iterP_stable (rooted_within_length (hg.2 i)) hfuel

/-- Witness for C10: three elements, unions `(0,1)` then `(1,2)`. -/
theorem claim_C10_unionfind_find_terminates_witness :
    (∀ p ∈ [((0 : Nat), (1 : Nat)), (1, 2)], p.1 < 3 ∧ p.2 < 3) ∧
    (∀ i fuel,
      ((UnionFind.init 3).applyUnions [(0, 1), (1, 2)]).parents.length ≤
        fuel →
      findAux ((UnionFind.init 3).applyUnions [(0, 1), (1, 2)]).parents fuel
          i =
        ((UnionFind.init 3).applyUnions [(0, 1), (1, 2)]).find i) :=
  ⟨by decide,
    (claim_C10_unionfind_find_terminates 3 [(0, 1), (1, 2)]
      (by decide)).2.2⟩

/-- With no edges, connectivity is equality. -/
theorem edgeConnected_nil {x y : Nat} (h : edgeConnected [] x y) : x = y := by
  induction h with
  | refl => rfl
  | tail _ hstep _ =>
    exfalso
    unfold edgeStep at hstep
    simp at hstep

/-- A step of the extended edge list is a step of the old list or the new
edge in one of its two orientations. -/
theorem edgeStep_append_elim {es : List (Nat × Nat)} {e : Nat × Nat}
    {x y : Nat} (h : edgeStep (es ++ [e]) x y) :
    edgeStep es x y ∨ (x = e.1 ∧ y = e.2) ∨ (x = e.2 ∧ y = e.1) := by
  unfold edgeStep at h ⊢
  rcases h with h | h <;>
    · rw [List.mem_append, List.mem_singleton] at h
      rcases h with h | h
      · tauto
      · rw [Prod.ext_iff] at h
        tauto

/-- The in-range default read of a list is a member. -/
theorem getD_mem {α : Type} {l : List α} {i : Nat} (h : i < l.length)
    (d : α) : l.getD i d ∈ l := by
  rw [List.getD_eq_getElem?_getD, List.getElem?_eq_getElem h]
  exact List.getElem_mem h

/-- Accepting an edge between two distinct components keeps union-find roots
in lockstep with edge-list connectivity. -/
theorem hconn_step {n : Nat} {uf : UnionFind} (hg : GoodUF n uf)
    {es : List (Nat × Nat)} {i j : Nat} (hi : i < n) (hj : j < n)
    (hconn : ∀ x y, edgeConnected es x y →
      rootOf uf.parents x = rootOf uf.parents y)
    (hne : rootOf uf.parents i ≠ rootOf uf.parents j) :
    ∀ x y, edgeConnected (es ++ [(i, j)]) x y →
      rootOf (uf.union i j).parents x = rootOf (uf.union i j).parents y := by
  have hchar := (union_preserves hg hi hj).2
  have hone : ∀ a b, edgeStep (es ++ [(i, j)]) a b →
      rootOf (uf.union i j).parents a = rootOf (uf.union i j).parents b := by
    intro a b hab
    rcases edgeStep_append_elim hab with h | ⟨ha, hb⟩ | ⟨ha, hb⟩
    · have h2 := hconn a b (Relation.ReflTransGen.single h)
      rw [hchar a, hchar b, h2]
    · rw [ha, hb]
      show rootOf (uf.union i j).parents i = rootOf (uf.union i j).parents j
      rw [hchar i, hchar j, if_pos ⟨rfl, hne⟩, if_neg]
      intro hcontra
      exact hne hcontra.1.symm
    · rw [ha, hb]
      show rootOf (uf.union i j).parents j = rootOf (uf.union i j).parents i
      rw [hchar i, hchar j,
        if_neg (fun hcontra => hne hcontra.1.symm), if_pos ⟨rfl, hne⟩]
  intro x y h
  induction h with
  | refl => rfl
  | tail _ hstep ih => rw [ih, hone _ _ hstep]

/-- The forest property of an edge list: no self-loops, and every edge joins
two vertices that the earlier edges leave disconnected (so the list has no
cycle). -/
def ForestList (es : List (Nat × Nat)) : Prop :=
  ∀ k, k < es.length → (es.getD k (0, 0)).1 ≠ (es.getD k (0, 0)).2 ∧
    ¬ edgeConnected (es.take k) (es.getD k (0, 0)).1 (es.getD k (0, 0)).2

theorem forestList_nil : ForestList [] := by
  intro k hk
  simp at hk

/-- Appending an edge that the current union-find state accepts preserves
the forest property. -/
theorem forestList_snoc {uf : UnionFind} {es : List (Nat × Nat)}
    {i j : Nat}
    (hconn : ∀ x y, edgeConnected es x y →
      rootOf uf.parents x = rootOf uf.parents y)
    (hacc : rootOf uf.parents i ≠ rootOf uf.parents j)
    (hf : ForestList es) : ForestList (es ++ [(i, j)]) := by
  intro k hk
  rw [List.length_append, List.length_singleton] at hk
  rcases Nat.lt_or_ge k es.length with hlt | hge
  · rw [getD_append_left _ _ _ hlt, List.take_append_of_le_length hlt.le]
    exact hf k hlt
  · have hkeq : k = es.length := by omega
    subst hkeq
    rw [getD_append_right _ _ _ (le_refl _), Nat.sub_self]
    have htake : (es ++ [(i, j)]).take es.length = es := List.take_left es _
    rw [htake]
    simp only [List.getD_cons_zero]
    refine ⟨?_, ?_⟩
    · intro heq
      exact hacc (congrArg (rootOf uf.parents) heq)
    · intro hcontra
      exact hacc (hconn _ _ hcontra)

/-- The greedy loop preserves the forest property: every accepted edge had
endpoints in components with different roots, i.e. endpoints not connected by
the edges accepted before it. -/
theorem mstFold_forest {n : Nat} :
    ∀ (cs : List Cand) (uf : UnionFind) (es : List (Nat × Nat)),
      GoodUF n uf →
      (∀ c ∈ cs, c.1.1 < n ∧ c.1.2 < n) →
      (∀ x y, edgeConnected es x y →
        rootOf uf.parents x = rootOf uf.parents y) →
      ForestList es →
      ForestList (mstFold uf es cs).2
  | [], _, _, _, _, _, hf => hf
  | c :: rest, uf, es, hg, hcs, hconn, hf => by
    have hbounds := hcs c (by simp)
    by_cases hacc : uf.find c.1.1 ≠ uf.find c.1.2
    · have hstep : mstFold uf es (c :: rest) =
          mstFold (uf.union c.1.1 c.1.2) (es ++ [c.1]) rest := by
        simp only [mstFold]
        rw [if_pos hacc]
      have hroots : rootOf uf.parents c.1.1 ≠ rootOf uf.parents c.1.2 := by
        rw [← find_eq_rootOf, ← find_eq_rootOf]
        exact hacc
      have hg2 := (union_preserves hg hbounds.1 hbounds.2).1
      have hconn2 := hconn_step hg hbounds.1 hbounds.2 hconn hroots
      have hf2 := forestList_snoc hconn hroots hf
      rw [hstep]
      exact mstFold_forest rest _ _ hg2 (fun q hq => hcs q (by simp [hq]))
        hconn2 hf2
    · have hstep : mstFold uf es (c :: rest) = mstFold uf es rest := by
        simp only [mstFold]
        rw [if_neg hacc]
      rw [hstep]
      exact mstFold_forest rest uf es hg (fun q hq => hcs q (by simp [hq]))
        hconn hf

/-- Every edge the greedy loop returns is an initial edge or the index pair
of one of the candidates. -/
theorem mstFold_mem :
    ∀ (cs : List Cand) (uf : UnionFind) (es : List (Nat × Nat))
      (e : Nat × Nat), e ∈ (mstFold uf es cs).2 →
      e ∈ es ∨ ∃ c ∈ cs, c.1 = e
  | [], _, _, _, h => Or.inl h
  | c :: rest, uf, es, e, h => by
    by_cases hacc : uf.find c.1.1 ≠ uf.find c.1.2
    · rw [show mstFold uf es (c :: rest) =
          mstFold (uf.union c.1.1 c.1.2) (es ++ [c.1]) rest from by
        simp only [mstFold]; rw [if_pos hacc]] at h
      rcases mstFold_mem rest _ _ e h with h2 | ⟨d, hd, he⟩
      · rw [List.mem_append, List.mem_singleton] at h2
        rcases h2 with h3 | h3
        · exact Or.inl h3
        · exact Or.inr ⟨c, by simp, h3.symm⟩
      · exact Or.inr ⟨d, by simp [hd], he⟩
    · rw [show mstFold uf es (c :: rest) = mstFold uf es rest from by
        simp only [mstFold]; rw [if_neg hacc]] at h
      rcases mstFold_mem rest _ _ e h with h2 | ⟨d, hd, he⟩
      · exact Or.inl h2
      · exact Or.inr ⟨d, by simp [hd], he⟩

/-- The greedy loop never accepts a self-loop: the acceptance test
`find(i) != find(j)` fails outright when `i = j`. -/
theorem mstFold_no_selfloop :
    ∀ (cs : List Cand) (uf : UnionFind) (es : List (Nat × Nat)),
      (∀ e ∈ es, e.1 ≠ e.2) →
      ∀ e ∈ (mstFold uf es cs).2, e.1 ≠ e.2
  | [], _, _, hes, e, he => hes e he
  | c :: rest, uf, es, hes, e, he => by
    by_cases hacc : uf.find c.1.1 ≠ uf.find c.1.2
    · rw [show mstFold uf es (c :: rest) =
          mstFold (uf.union c.1.1 c.1.2) (es ++ [c.1]) rest from by
        simp only [mstFold]; rw [if_pos hacc]] at he
      refine mstFold_no_selfloop rest _ _ (fun d hd => ?_) e he
      rw [List.mem_append, List.mem_singleton] at hd
      rcases hd with hd | hd
      · exact hes d hd
      · subst hd
        intro heq
        exact hacc (congrArg uf.find heq)
    · rw [show mstFold uf es (c :: rest) = mstFold uf es rest from by
        simp only [mstFold]; rw [if_neg hacc]] at he
      exact mstFold_no_selfloop rest uf es hes e he

/-- What candidate membership means: in-range row-major index pair, both
surface forms outside the excluded set. -/
theorem candidate_pairs_spec {matrix : List (List (Option ℚ))}
    {words excluded : List String} {c : Cand}
    (hc : c ∈ candidate_pairs matrix words excluded) :
    c.1.1 < matrix.length ∧ c.1.2 < (matrix.getD c.1.1 []).length ∧
      words.getD c.1.1 "" ∉ excluded ∧ words.getD c.1.2 "" ∉ excluded := by
  unfold candidate_pairs at hc
  rw [List.mem_flatMap] at hc
  obtain ⟨i, hi, hc⟩ := hc
  rw [List.mem_flatMap] at hc
  obtain ⟨j, hj, hc⟩ := hc
  rw [List.mem_range] at hi hj
  by_cases hex : words.getD i "" ∈ excluded ∨ words.getD j "" ∈ excluded
  · rw [if_pos hex] at hc
    simp at hc
  · rw [if_neg hex] at hc
    rw [List.mem_singleton] at hc
    subst hc
    push_neg at hex
    exact ⟨hi, hj, hex.1, hex.2⟩

/-- Sorting does not change the candidate pool. -/
theorem mem_sorted_candidate_pairs {matrix : List (List (Option ℚ))}
    {words : List String} {maximum : Bool} {excluded : List String}
    {c : Cand} (hc : c ∈ sorted_candidate_pairs matrix words maximum
      excluded) : c ∈ candidate_pairs matrix words excluded := by
  unfold sorted_candidate_pairs at hc
  cases maximum
  · rw [if_neg (by simp)] at hc
    exact (List.mem_insertionSort _).mp hc
  · rw [if_pos rfl] at hc
    exact (List.mem_insertionSort _).mp hc

/-- The shared spanning-tree extractor returns a forest. -/
theorem mst_core_forest (excluded : List String)
    (matrix : List (List (Option ℚ))) (words : List String)
    (maximum_spanning_tree : Bool)
    (hsq : ∀ row ∈ matrix, row.length = matrix.length) :
    ForestList (mst_core excluded matrix words maximum_spanning_tree) := by
  unfold mst_core
  apply mstFold_forest (n := matrix.length)
  · exact goodUF_init _
  · intro c hc
    have h := candidate_pairs_spec (mem_sorted_candidate_pairs hc)
    refine ⟨h.1, ?_⟩
    have hrow := hsq (matrix.getD c.1.1 []) (getD_mem h.1 [])
    rw [← hrow]
    exact h.2.1
  · intro x y h
    rw [edgeConnected_nil h]
  · exact forestList_nil

/-- Every edge the shared extractor returns is an unexcluded in-range
candidate pair. -/
theorem mst_core_mem (excluded : List String)
    (matrix : List (List (Option ℚ))) (words : List String)
    (maximum_spanning_tree : Bool) (e : Nat × Nat)
    (he : e ∈ mst_core excluded matrix words maximum_spanning_tree) :
    e.1 < matrix.length ∧ e.2 < (matrix.getD e.1 []).length ∧
      words.getD e.1 "" ∉ excluded ∧ words.getD e.2 "" ∉ excluded := by
  unfold mst_core at he
  rcases mstFold_mem _ _ _ _ he with h | ⟨c, hc, hce⟩
  · simp at h
  · have h := candidate_pairs_spec (mem_sorted_candidate_pairs hc)
    rw [hce] at h
    exact h

/-- The shared extractor never returns a self-loop. -/
theorem mst_core_no_selfloop (excluded : List String)
    (matrix : List (List (Option ℚ))) (words : List String)
    (maximum_spanning_tree : Bool) (e : Nat × Nat)
    (he : e ∈ mst_core excluded matrix words maximum_spanning_tree) :
    e.1 ≠ e.2 := by
  unfold mst_core at he
  exact mstFold_no_selfloop _ _ _ (fun d hd => by simp at hd) e he

/-- C2: for every square weight matrix and word list, in both extractors the
greedy loop accepts an edge only when its endpoints have different union-find
roots at that moment (and merges them); consequently the returned edge list
is a forest — `ForestList`: no self-loop, and no edge connects two vertices
already connected by the earlier accepted edges, so no cycle exists. -/
theorem claim_C2_mst_acyclic (matrix : List (List (Option ℚ)))
    (words : List String) (maximum_spanning_tree : Bool)
    (hsq : ∀ row ∈ matrix, row.length = matrix.length) :
    ForestList (MST_edges matrix words maximum_spanning_tree) ∧
      ForestList (prims_MST_edges matrix words maximum_spanning_tree) :=
  ⟨mst_core_forest _ _ _ _ hsq, mst_core_forest _ _ _ _ hsq⟩

/-- Witness for C2 on a concrete 2×2 matrix. -/
theorem claim_C2_mst_acyclic_witness :
    (∀ row ∈ [[some (1 : ℚ), some 2], [some 3, none]],
      row.length = [[some (1 : ℚ), some 2], [some 3, none]].length) ∧
    ForestList (MST_edges [[some (1 : ℚ), some 2], [some 3, none]]
      ["a", "b"] true) :=
  ⟨by decide,
    (claim_C2_mst_acyclic [[some (1 : ℚ), some 2], [some 3, none]]
      ["a", "b"] true (by decide)).1⟩

/-- Counterexample to C4 as stated: the batched assembly
(`ptb_tokenlist_to_pmi_matrix`, which reads every entry — the diagonal
included — out of the combined oracle output) computes a finite value, not
NaN, on the diagonal: with one single-sub-token word and the constant-zero
oracle the diagonal entry is `some 0`. -/
theorem claim_C4_counterexample :
    ((ptb_tokenlist_to_pmi_matrix zeroOracle 64 [[0]] [7, 4, 3]).getD 0
      []).getD 0 none ≠ none := by
  decide

/-- C4 amended: the single-pair strategy (`get_pmi_matrix_using_spans`) puts
NaN on every diagonal entry — and, in both extractors, no diagonal pair
`(i, i)` ever appears as an edge of a returned spanning tree, since the
union-find acceptance test `find(i) != find(i)` fails; the batched strategy,
however, fills its diagonal with computed finite values. -/
theorem claim_C4_diagonal_nan (f : Oracle) (indices : List (List Nat))
    (ids : List Nat) (i : Nat) (hi : i < indices.length) :
    ((get_pmi_matrix_using_spans f indices ids).getD i []).getD i none =
      none ∧
    (∀ (matrix : List (List (Option ℚ))) (words : List String)
      (maximum_spanning_tree : Bool) (e : Nat × Nat),
      e ∈ MST_edges matrix words maximum_spanning_tree → e.1 ≠ e.2) ∧
    (∀ (matrix : List (List (Option ℚ))) (words : List String)
      (maximum_spanning_tree : Bool) (e : Nat × Nat),
      e ∈ prims_MST_edges matrix words maximum_spanning_tree →
        e.1 ≠ e.2) := by
  refine ⟨?_, ?_, ?_⟩
  · unfold get_pmi_matrix_using_spans
    rw [getD_map_range _ _ hi, getD_map_range _ _ hi, if_pos rfl]
  · intro m w mx e he
    exact mst_core_no_selfloop _ _ _ _ e he
  · intro m w mx e he
    exact mst_core_no_selfloop _ _ _ _ e he

/-- Witness for the amended C4 at a one-word sentence. -/
theorem claim_C4_diagonal_nan_witness :
    (0 : Nat) < [[(0 : Nat)]].length ∧
    ((get_pmi_matrix_using_spans zeroOracle [[0]] [7, 4, 3]).getD 0
      []).getD 0 none = none :=
  ⟨by decide,
    (claim_C4_diagonal_nan zeroOracle [[0]] [7, 4, 3] 0 (by decide)).1⟩

/-- C5: in both extractors, no returned edge has an endpoint whose surface
form is in that extractor's excluded-token set, and the endpoint indices are
positions into the original word list (exclusion filters candidates without
renumbering). -/
theorem claim_C5_excluded_endpoints (matrix : List (List (Option ℚ)))
    (words : List String) (maximum_spanning_tree : Bool)
    (hsq : ∀ row ∈ matrix, row.length = matrix.length)
    (hw : words.length = matrix.length) :
    (∀ e ∈ MST_edges matrix words maximum_spanning_tree,
      e.1 < words.length ∧ e.2 < words.length ∧
      words.getD e.1 "" ∉ excludedSpanAsBatch ∧
      words.getD e.2 "" ∉ excludedSpanAsBatch) ∧
    (∀ e ∈ prims_MST_edges matrix words maximum_spanning_tree,
      e.1 < words.length ∧ e.2 < words.length ∧
      words.getD e.1 "" ∉ excludedNocontext ∧
      words.getD e.2 "" ∉ excludedNocontext) := by
  constructor <;>
  · intro e he
    have h := mst_core_mem _ _ _ _ e he
    have hrow := hsq (matrix.getD e.1 []) (getD_mem h.1 [])
    refine ⟨?_, ?_, h.2.2.1, h.2.2.2⟩
    · rw [hw]
      exact h.1
    · have h2 := h.2.1
      rw [hrow] at h2
      rw [hw]
      exact h2

/-- Witness for C5 on a concrete 2×2 matrix with an excluded word. -/
theorem claim_C5_excluded_endpoints_witness :
    (∀ row ∈ [[some (1 : ℚ), some 2], [some 3, none]],
      row.length = [[some (1 : ℚ), some 2], [some 3, none]].length) ∧
    ["a", "."].length = [[some (1 : ℚ), some 2], [some 3, none]].length ∧
    (∀ e ∈ MST_edges [[some (1 : ℚ), some 2], [some 3, none]] ["a", "."]
        true,
      e.1 < ["a", "."].length ∧ e.2 < ["a", "."].length ∧
      ["a", "."].getD e.1 "" ∉ excludedSpanAsBatch ∧
      ["a", "."].getD e.2 "" ∉ excludedSpanAsBatch) :=
  ⟨by decide, by decide,
    (claim_C5_excluded_endpoints [[some (1 : ℚ), some 2], [some 3, none]]
      ["a", "."] true (by decide) (by decide)).1⟩

/-- Only NaN compares key-below NaN. -/
theorem keyLe_none_right {x : Option ℚ} (h : keyLe x none = true) :
    x = none := by
  cases x
  · rfl
  · simp [keyLe] at h

/-- Indexed reading of a sorted list respects the sort relation. -/
theorem sorted_getD_rel {r : Cand → Cand → Prop} {l : List Cand}
    (hs : List.Sorted r l) {p q : Nat} (hpq : p < q) (hq : q < l.length)
    (d : Cand) : r (l.getD p d) (l.getD q d) := by
  have hp : p < l.length := lt_trans hpq hq
  rw [List.getD_eq_getElem?_getD, List.getElem?_eq_getElem hp,
    List.getD_eq_getElem?_getD, List.getElem?_eq_getElem hq]
  exact List.pairwise_iff_get.mp hs ⟨p, hp⟩ ⟨q, hq⟩ hpq

/-- C3 amended: the sort key maps NaN to `-inf`, so in the descending
(`maximum_spanning_tree = true`) sort every NaN-weight candidate is ordered
after every non-NaN candidate — but in the ascending
(`maximum_spanning_tree = false`) sort every NaN-weight candidate is ordered
BEFORE every non-NaN candidate, the opposite of what the claim states for
that direction. -/
theorem claim_C3_nan_sort_order (matrix : List (List (Option ℚ)))
    (words : List String) (excluded : List String) (p q : Nat)
    (hpq : p ≤ q) (hq : q < (candidate_pairs matrix words excluded).length) :
    (((sorted_candidate_pairs matrix words true excluded).getD p
        ((0, 0), none)).2 = none →
      ((sorted_candidate_pairs matrix words true excluded).getD q
        ((0, 0), none)).2 = none) ∧
    (((sorted_candidate_pairs matrix words false excluded).getD q
        ((0, 0), none)).2 = none →
      ((sorted_candidate_pairs matrix words false excluded).getD p
        ((0, 0), none)).2 = none) := by
  have hT : sorted_candidate_pairs matrix words true excluded =
      List.insertionSort candGe (candidate_pairs matrix words excluded) := by
    unfold sorted_candidate_pairs
    rw [if_pos rfl]
  have hF : sorted_candidate_pairs matrix words false excluded =
      List.insertionSort candLe (candidate_pairs matrix words excluded) := by
    unfold sorted_candidate_pairs
    rw [if_neg (by simp)]
  have hlenT : (sorted_candidate_pairs matrix words true excluded).length =
      (candidate_pairs matrix words excluded).length := by
    rw [hT]
    exact (List.perm_insertionSort _ _).length_eq
  have hlenF : (sorted_candidate_pairs matrix words false excluded).length =
      (candidate_pairs matrix words excluded).length := by
    rw [hF]
    exact (List.perm_insertionSort _ _).length_eq
  constructor
  · intro hnan
    rcases Nat.eq_or_lt_of_le hpq with heq | hlt
    · rw [← heq]
      exact hnan
    · have hs : List.Sorted candGe
          (sorted_candidate_pairs matrix words true excluded) := by
        rw [hT]
        exact List.sorted_insertionSort candGe _
      have hr := sorted_getD_rel hs hlt (by rw [hlenT]; exact hq)
        ((0, 0), none)
      unfold candGe at hr
      rw [hnan] at hr
      exact keyLe_none_right hr
  · intro hnan
    rcases Nat.eq_or_lt_of_le hpq with heq | hlt
    · rw [heq]
      exact hnan
    · have hs : List.Sorted candLe
          (sorted_candidate_pairs matrix words false excluded) := by
        rw [hF]
        exact List.sorted_insertionSort candLe _
      have hr := sorted_getD_rel hs hlt (by rw [hlenF]; exact hq)
        ((0, 0), none)
      unfold candLe at hr
      rw [hnan] at hr
      exact keyLe_none_right hr

/-- Counterexample to C3 as stated: with `maximum_spanning_tree = false`
(the ascending sort used for the gold minimum spanning tree), the NaN-weight
candidate `((0,1), NaN)` is sorted FIRST — before the non-NaN candidates —
because NaN is keyed as `-inf`, not as the worst value of the direction. -/
theorem claim_C3_counterexample :
    ((sorted_candidate_pairs [[some 0, none], [some 1, some 0]] ["a", "b"]
        false excludedSpanAsBatch).getD 0 ((0, 0), some 0)).2 = none ∧
    ((sorted_candidate_pairs [[some 0, none], [some 1, some 0]] ["a", "b"]
        false excludedSpanAsBatch).getD 1 ((0, 0), some 0)).2 ≠ none := by
  decide

/-- Witness for the amended C3 at concrete positions 0 ≤ 1 of a 2×2
matrix with one NaN entry. -/
theorem claim_C3_nan_sort_order_witness :
    (0 : Nat) ≤ 1 ∧
    1 < (candidate_pairs [[some 0, none], [some 1, some 0]] ["a", "b"]
      excludedSpanAsBatch).length ∧
    (((sorted_candidate_pairs [[some 0, none], [some 1, some 0]] ["a", "b"]
        false excludedSpanAsBatch).getD 1 ((0, 0), none)).2 = none →
      ((sorted_candidate_pairs [[some 0, none], [some 1, some 0]] ["a", "b"]
        false excludedSpanAsBatch).getD 0 ((0, 0), none)).2 = none) :=
  ⟨by decide, by decide,
    (claim_C3_nan_sort_order [[some 0, none], [some 1, some 0]] ["a", "b"]
      excludedSpanAsBatch 0 1 (by decide) (by decide)).2⟩

/-- Sorting a pair ignores endpoint order. -/
theorem sortPair_swap (a b : Nat) : sortPair (a, b) = sortPair (b, a) := by
  unfold sortPair
  dsimp only
  rcases Nat.lt_or_ge a b with h | h
  · rw [if_pos (by omega), if_neg (by omega)]
  · rcases Nat.lt_or_ge b a with h2 | h2
    · rw [if_neg (by omega), if_pos (by omega)]
    · have hab : a = b := by omega
      subst hab
      rfl

/-- C6: the attachment score equals `|{sorted predicted} ∩ {sorted gold}| /
len(gold_edges)` and is NaN (`none`) — not an exception — when the gold edge
list is empty; a one-word sentence yields an empty gold edge list (its only
candidate is the self-loop `(0, 0)`, which the extractor rejects) and hence
a NaN score. -/
theorem claim_C6_uuas_formula :
    (∀ (predicted_edges gold_edges : List (Nat × Nat)),
      (gold_edges = [] → uuas_score predicted_edges gold_edges = none) ∧
      (gold_edges ≠ [] → uuas_score predicted_edges gold_edges =
        some ((((predicted_edges.map sortPair).toFinset ∩
          (gold_edges.map sortPair).toFinset).card : ℚ) /
          (gold_edges.length : ℚ)))) ∧
    (∀ (w : Option ℚ) (word : String)
      (predicted_edges : List (Nat × Nat)),
      uuas_score predicted_edges (prims_MST_edges [[w]] [word] false) =
        none) := by
  have hnone : ∀ predicted_edges : List (Nat × Nat),
      uuas_score predicted_edges [] = none := by
    intro pred
    unfold uuas_score
    rw [if_neg (by simp)]
  constructor
  · intro pred gold
    constructor
    · intro h
      subst h
      exact hnone pred
    · intro h
      unfold uuas_score
      rw [if_pos (by simpa using h), Finset.inter_comm]
  · intro w word pred
    have hempty : prims_MST_edges [[w]] [word] false = [] := by
      rw [List.eq_nil_iff_forall_not_mem]
      intro e he
      have h1 := mst_core_no_selfloop _ _ _ _ e he
      have h2 := mst_core_mem _ _ _ _ e he
      have ha : e.1 < 1 := by simpa using h2.1
      have he1 : e.1 = 0 := by omega
      have hb : e.2 < 1 := by
        have h3 := h2.2.1
        rw [he1] at h3
        simpa using h3
      exact h1 (by omega)
    rw [hempty]
    exact hnone pred

/-- Witness for C6: empty gold gives NaN, nonempty gold gives the ratio, and
the one-word-sentence gold tree gives NaN. -/
theorem claim_C6_uuas_formula_witness :
    uuas_score [(0, 1)] [] = none ∧
    uuas_score [(0, 1)] (prims_MST_edges [[none]] ["x"] false) = none :=
  ⟨(claim_C6_uuas_formula.1 [(0, 1)] []).1 rfl,
    claim_C6_uuas_formula.2 none "x" [(0, 1)]⟩

/-- C9: the attachment score is invariant under reordering edges in either
list and under swapping the endpoints inside any edge (both leave the sorted
multiset of pairs intact); in particular
`score([(a,b)], [(b,a)]) = score([(a,b)], [(a,b)])`. -/
theorem claim_C9_score_symmetric :
    (∀ (pred1 pred2 gold1 gold2 : List (Nat × Nat)),
      (pred1.map sortPair).Perm (pred2.map sortPair) →
      (gold1.map sortPair).Perm (gold2.map sortPair) →
      uuas_score pred1 gold1 = uuas_score pred2 gold2) ∧
    (∀ a b : Nat,
      uuas_score [(a, b)] [(b, a)] = uuas_score [(a, b)] [(a, b)]) := by
  have hmain : ∀ (pred1 pred2 gold1 gold2 : List (Nat × Nat)),
      (pred1.map sortPair).Perm (pred2.map sortPair) →
      (gold1.map sortPair).Perm (gold2.map sortPair) →
      uuas_score pred1 gold1 = uuas_score pred2 gold2 := by
    intro p1 p2 g1 g2 hp hg
    unfold uuas_score
    have hlen : g1.length = g2.length := by
      have h1 := hg.length_eq
      simpa using h1
    rw [List.toFinset_eq_of_perm _ _ hp, List.toFinset_eq_of_perm _ _ hg,
      hlen]
  refine ⟨hmain, fun a b => ?_⟩
  have hgold : ([(b, a)].map sortPair) = ([(a, b)].map sortPair) := by
    simp only [List.map_cons, List.map_nil]
    rw [← sortPair_swap a b]
  exact hmain [(a, b)] [(a, b)] [(b, a)] [(a, b)] (List.Perm.refl _)
    (by rw [hgold])

/-- Witness for C9: a permuted, endpoint-swapped instance, and the
single-edge endpoint-swap instance. -/
theorem claim_C9_score_symmetric_witness :
    uuas_score [(0, 1), (2, 3)] [(4, 5)] =
      uuas_score [(3, 2), (0, 1)] [(5, 4)] ∧
    uuas_score [(0, 1)] [(1, 0)] = uuas_score [(0, 1)] [(0, 1)] :=
  ⟨claim_C9_score_symmetric.1 [(0, 1), (2, 3)] [(3, 2), (0, 1)] [(4, 5)]
      [(5, 4)] (by decide) (by decide),
    claim_C9_score_symmetric.2 0 1⟩
